import Mathlib

/-!
# go-pass: reading a password into locked memory

A shallow embedding of `read.go` and `pass.go`.

* Bytes are `Fin 256`.
* An `io.Reader` is a finite script of `Read` outcomes; once the script is
  exhausted every further `Read` reports `io.EOF`.  A reader that never stops
  delivering bytes is outside the model.
* A destination slice `out` is the list of its `len(out)` bytes; the element
  `out[i:i+1]` handed to `getch` is addressed by the index `i`.
* The loop of `ReadTo` runs on an iteration budget; `ReadTo` supplies one more
  than the number of events in the script, which `ReadTo_total` shows to be
  enough for every reader.
* The terminal state saved by `terminal.MakeRaw` and restored on return has
  no influence on the results and is left out.
* Go `int` is the 64-bit two's complement word, represented by its bit
  pattern in `[0, 2^64)`.
* The operating system (anonymous mappings, the mapping table of package
  `syscall`, `mlock`) is explicit state; a call that panics or touches
  unmapped memory ends in the corresponding `Outcome`.
-/

namespace GoPass

/-! ## Errors and bytes -/

abbrev Byte := Fin 256

/-- Go `error` values that occur in the package. -/
inductive Error where
  | EOF
  | backspace
  | ErrInterrupted
  | EINVAL
  | other (code : Nat)
deriving DecidableEq, Repr

def asciiDEL : Byte := 0x7f
def asciiETX : Byte := 0x03
def asciiEOT : Byte := 0x04
def asciiBS : Byte := 0x08
def asciiLF : Byte := 0x0a
def asciiCR : Byte := 0x0d

/-- The bytes of an ASCII string literal. -/
def ascii (s : String) : List Byte := s.toList.map (fun c => Fin.ofNat c.toNat)

/-! ## Readers -/

/-- One call of `Read` on a one-byte slice: the byte stored in the slice, if
any, and the error returned.  The returned count is ignored by the callers. -/
structure ReadEvent where
  data : Option Byte
  err : Option Error
deriving DecidableEq, Repr

/-- An `io.Reader`.  `fd` is `none` when the reader has no `Fd()` method and
`some t` when it has one, `t` being `terminal.IsTerminal` of that descriptor.
`makeRawErr` is what `terminal.MakeRaw` returns for it. -/
structure Reader where
  fd : Option Bool
  makeRawErr : Option Error
  script : List ReadEvent
deriving DecidableEq, Repr

/-- The call `rd.Read(out[i:i+1])`. -/
def Reader.Read (rd : Reader) (out : List Byte) (i : Nat) :
    List Byte × Reader × Option Error :=
  match rd.script with
  | [] => (out, rd, some Error.EOF)
  | ev :: rest =>
    ((match ev.data with
      | some b => out.set i b
      | none => out), { rd with script := rest }, ev.err)

/-- A reader delivering the bytes of `s` one per `Read`, then end of input. -/
def byteScript (s : List Byte) : List ReadEvent :=
  s.map (fun b => ⟨some b, none⟩)

/-- A reader without a file descriptor, such as `strings.NewReader`. -/
def plainReader (s : List Byte) : Reader := ⟨none, none, byteScript s⟩

/-- A reader backed by a terminal that enters raw mode without error. -/
def ttyReader (s : List Byte) : Reader := ⟨some true, none, byteScript s⟩

/-! ## read.go -/

def getchTTY (out : List Byte) (i : Nat) (rd : Reader) :
    List Byte × Reader × Option Error :=
  match rd.Read out i with
  | (out, rd, some err) => (out, rd, some err)
  | (out, rd, none) =>
    let c := out.getD i 0
    if c = asciiETX then (out, rd, some Error.ErrInterrupted)
    else if c = asciiBS ∨ c = asciiDEL then (out, rd, some Error.backspace)
    else if c = asciiEOT ∨ c = asciiLF ∨ c = asciiCR then (out, rd, some Error.EOF)
    else (out, rd, none)

def getchNormal (out : List Byte) (i : Nat) (rd : Reader) :
    List Byte × Reader × Option Error :=
  match rd.Read out i with
  | (out, rd, some err) => (out, rd, some err)
  | (out, rd, none) =>
    let c := out.getD i 0
    if c = asciiEOT ∨ c = asciiLF ∨ c = asciiCR then (out, rd, some Error.EOF)
    else (out, rd, none)

/-- What `ReadTo` returns, together with the final contents of `out` and the
state of the reader. -/
structure ReadResult where
  n : Nat
  err : Option Error
  out : List Byte
  rd : Reader
deriving DecidableEq, Repr

/-- The `for i < len(out)` loop of `ReadTo`; `none` when the iteration budget
is used up. -/
def ReadTo.loop (getch : List Byte → Nat → Reader → List Byte × Reader × Option Error) :
    Nat → Reader → List Byte → Nat → Option ReadResult
  | 0, _, _, _ => none
  | fuel + 1, rd, out, i =>
    if i < out.length then
      match getch out i rd with
      | (out, rd, err) =>
        if err = some Error.backspace then
          ReadTo.loop getch fuel rd out (if i > 0 then i - 1 else i)
        else if err = some Error.EOF then
          some ⟨i, none, out, rd⟩
        else if err ≠ none then
          some ⟨0, err, out, rd⟩
        else
          ReadTo.loop getch fuel rd out (i + 1)
    else
      some ⟨i, none, out, rd⟩

/-- Whether `ReadTo` selects `getchTTY` for this reader. -/
def Reader.isTTY (rd : Reader) : Bool := rd.fd = some true

/-- The call `ReadTo(rd, out)`.  Every iteration but the last takes one event off the
script, so `len(script) + 1` iterations are enough. -/
def ReadTo (rd : Reader) (out : List Byte) : Option ReadResult :=
  if rd.isTTY then
    match rd.makeRawErr with
    | some err => some ⟨0, some err, out, rd⟩
    | none => ReadTo.loop getchTTY (rd.script.length + 1) rd out 0
  else
    ReadTo.loop getchNormal (rd.script.length + 1) rd out 0

/-- Number of events `ReadTo` took off the script of `rd`. -/
def consumed (rd : Reader) (r : ReadResult) : Nat :=
  rd.script.length - r.rd.script.length

/-! ## Machine integers -/

/-- Number of bit patterns of a Go `int`. -/
def wordSize : Nat := 2 ^ 64

/-- Subtraction `a - b` on `int`. -/
def intSub (a b : Nat) : Nat := (a + (wordSize - b % wordSize)) % wordSize

/-- Addition `a + b` on `int`. -/
def intAdd (a b : Nat) : Nat := (a + b) % wordSize

/-- The bitwise complement `^a` on `int`. -/
def intNot (a : Nat) : Nat := wordSize - 1 - a % wordSize

/-- The bitwise conjunction `a & b` on `int`. -/
def intAnd (a b : Nat) : Nat := a &&& b

/-- Whether the `int` with this bit pattern is negative. -/
def intNeg (a : Nat) : Bool := 2 ^ 63 ≤ a

/-! ## Memory and the operating system -/

/-- A slice header: the backing array (`region`), the offset of the first
element in it, `len` and `cap`. -/
structure Slice where
  region : Nat
  off : Nat
  len : Nat
  cap : Nat
deriving DecidableEq, Repr

/-- The type `Password []byte`; `none` is the nil slice. -/
abbrev Password := Option Slice

/-- A block of accessible memory.  `active` marks an anonymous mapping that is
registered in the mapping table of package `syscall`. -/
structure Region where
  bytes : List Byte
  active : Bool
  locked : Bool
deriving DecidableEq, Repr

/-- System calls that took effect; `munmap` records the contents of the
mapping at the moment it was released. -/
inductive Syscall where
  | mmap (region : Nat) (length : Nat)
  | mlock (region : Nat)
  | munmap (region : Nat) (bytes : List Byte)
deriving DecidableEq, Repr

/-- The state of the process memory.  `regions[r] = none` once region `r` is
unmapped.  `mmapErr` and `mlockErr` are the errors the kernel answers to
`mmap` and `mlock`, if it refuses them. -/
structure OS where
  pagesize : Nat
  regions : List (Option Region)
  mmapErr : Option Error
  mlockErr : Option Error
  log : List Syscall
deriving DecidableEq, Repr

/-- How a call ends: it returns, panics, touches unmapped memory, or uses up
the iteration budget of a loop. -/
inductive Outcome (α : Type) where
  | ret (a : α)
  | panic
  | fault
  | diverge
deriving DecidableEq, Repr

def OS.region (os : OS) (r : Nat) : Option Region := os.regions.getD r none

/-- The call `syscall.Mmap(-1, 0, length, PROT_READ|PROT_WRITE, MAP_PRIVATE|MAP_ANONYMOUS)`:
`EINVAL` for `length <= 0`, otherwise a fresh zero-filled mapping unless the
kernel refuses. -/
def Mmap (os : OS) (length : Nat) : OS × Except Error Slice :=
  if length = 0 ∨ intNeg length then (os, .error Error.EINVAL)
  else
    match os.mmapErr with
    | some err => (os, .error err)
    | none =>
      ({ os with
          regions := os.regions ++ [some ⟨List.replicate length 0, true, false⟩]
          log := os.log ++ [Syscall.mmap os.regions.length length] },
        .ok ⟨os.regions.length, 0, length, length⟩)

/-- The call `syscall.Mlock(b)`. -/
def Mlock (os : OS) (b : Slice) : OS × Option Error :=
  match os.mlockErr with
  | some err => (os, some err)
  | none =>
    match os.region b.region with
    | none => (os, some Error.EINVAL)
    | some r =>
      ({ os with
          regions := os.regions.set b.region (some { r with locked := true })
          log := os.log ++ [Syscall.mlock b.region] }, none)

/-- The call `syscall.Munmap(data)`: `EINVAL` unless `data` has `len = cap > 0` and
spans a registered mapping from its first to its last byte. -/
def Munmap (os : OS) (data : Slice) : OS × Option Error :=
  if data.len = 0 ∨ data.len ≠ data.cap then (os, some Error.EINVAL)
  else
    match os.region data.region with
    | none => (os, some Error.EINVAL)
    | some r =>
      if r.active ∧ data.off = 0 ∧ data.cap = r.bytes.length then
        ({ os with
            regions := os.regions.set data.region none
            log := os.log ++ [Syscall.munmap data.region r.bytes] }, none)
      else (os, some Error.EINVAL)

/-- The assignment `p[i] = b`. -/
def OS.setByte (os : OS) (p : Slice) (i : Nat) (b : Byte) : Outcome OS :=
  if i < p.len then
    match os.region p.region with
    | none => .fault
    | some r =>
      if p.off + i < r.bytes.length then
        .ret { os with
          regions := os.regions.set p.region (some { r with bytes := r.bytes.set (p.off + i) b }) }
      else .fault
  else .panic

/-- The byte `p[:cap(p)][i]`. -/
def OS.byteAt (os : OS) (p : Slice) (i : Nat) : Option Byte :=
  match os.region p.region with
  | none => none
  | some r => if i < p.cap then r.bytes[p.off + i]? else none

/-- The bytes `p[0:len(p)]`. -/
def OS.load (os : OS) (p : Slice) : Option (List Byte) :=
  match os.region p.region with
  | none => none
  | some r =>
    if p.off + p.len ≤ r.bytes.length then some ((r.bytes.drop p.off).take p.len) else none

/-- Write `data`, of length `len(p)`, back to `p[0:len(p)]`. -/
def OS.store (os : OS) (p : Slice) (data : List Byte) : OS :=
  match os.region p.region with
  | none => os
  | some r =>
    { os with
      regions := os.regions.set p.region
        (some { r with bytes := r.bytes.take p.off ++ data ++ r.bytes.drop (p.off + p.len) }) }

/-! ## pass.go -/

def align2Up (v p : Nat) : Nat :=
  intAdd (intAnd (intSub v 1) (intNot (intSub p 1))) p

def makePasswd (os : OS) (size : Nat) : Outcome (OS × Password × Option Error) :=
  let capacity := align2Up size os.pagesize
  match Mmap os capacity with
  | (os, .error err) => .ret (os, none, some err)
  | (os, .ok buf) =>
    match Mlock os buf with
    | (os, some err) => .ret ((Munmap os buf).1, none, some err)
    | (os, none) =>
      if ¬ intNeg size ∧ size ≤ buf.cap then .ret (os, some { buf with len := size }, none)
      else .panic

/-- The loop `for i := range p { p[i] = 0 }`, from index `i` for `k` rounds. -/
def Password.Wipe.loop (p : Slice) : Nat → Nat → OS → Outcome OS
  | 0, _, os => .ret os
  | k + 1, i, os =>
    match os.setByte p i 0 with
    | .ret os => Password.Wipe.loop p k (i + 1) os
    | .panic => .panic
    | .fault => .fault
    | .diverge => .diverge

def Password.Wipe (os : OS) (p : Password) : Outcome OS :=
  match p with
  | none => .ret os
  | some p =>
    let p := { p with len := p.cap }
    Password.Wipe.loop p p.len 0 os

/-- The call `p.Free()` on the variable `p`: the new state and the new value of `*p`. -/
def Password.Free (os : OS) (p : Password) : Outcome (OS × Password) :=
  match p with
  | none => .ret (os, none)
  | some s =>
    match Password.Wipe os (some s) with
    | .ret os =>
      match Munmap os { s with len := s.cap } with
      | (_, some _) => .panic
      | (os, none) => .ret (os, none)
    | .panic => .panic
    | .fault => .fault
    | .diverge => .diverge

/-! ## read.go: `ReadSize` -/

/-- The call `ReadSize(rd, size)`: the final state of memory and of the reader, and the
two results. -/
def ReadSize (os : OS) (rd : Reader) (size : Nat) :
    Outcome (OS × Reader × Password × Option Error) :=
  let size := if size = 0 then os.pagesize else size
  match makePasswd os size with
  | .ret (os, _, some err) => .ret (os, rd, none, some err)
  | .ret (os, none, none) => .ret (os, rd, none, none)
  | .ret (os, some pass, none) =>
    match os.load pass with
    | none => .fault
    | some out =>
      match ReadTo rd out with
      | none => .diverge
      | some r =>
        let os := os.store pass r.out
        match r.err with
        | some err =>
          match Password.Free os (some pass) with
          | .ret (os, _) => .ret (os, r.rd, none, some err)
          | .panic => .panic
          | .fault => .fault
          | .diverge => .diverge
        | none =>
          if r.n ≤ pass.cap then .ret (os, r.rd, some { pass with len := r.n }, none)
          else .panic
  | .panic => .panic
  | .fault => .fault
  | .diverge => .diverge

/-- The call `Read(rd)`. -/
def Read (os : OS) (rd : Reader) : Outcome (OS × Reader × Password × Option Error) :=
  ReadSize os rd 0

/-! ## Predicates on states -/

/-- A handle is live: it is non-nil and spans, from its first byte, a
registered mapping of positive length. -/
def OS.live (os : OS) (p : Password) : Bool :=
  match p with
  | none => false
  | some s =>
    match os.region s.region with
    | none => false
    | some r =>
      r.active && decide (s.off = 0) && decide (s.cap = r.bytes.length) && decide (0 < s.cap)
        && decide (s.len ≤ s.cap)

/-- The bytes `bs` with the `k` positions from `start` on set to zero. -/
def zeroFrom (bs : List Byte) : Nat → Nat → List Byte
  | _, 0 => bs
  | start, k + 1 => zeroFrom (bs.set start 0) (start + 1) k

/-- Replace region `n`. -/
def OS.setRegion (os : OS) (n : Nat) (x : Option Region) : OS :=
  { os with regions := os.regions.set n x }

/-- What the loop of `ReadTo` needs from a `getch`: it takes one event off the
script, keeps the length of the destination, and reports `io.EOF` on an
exhausted script. -/
def GetchOk (getch : List Byte → Nat → Reader → List Byte × Reader × Option Error) : Prop :=
  ∀ (out : List Byte) (i : Nat) (rd : Reader),
    ∃ out1 e, getch out i rd = (out1, { rd with script := rd.script.tail }, e) ∧
      out1.length = out.length ∧ (rd.script = [] → e = some Error.EOF)

/-- A process with 4096-byte pages and no memory mapped. -/
def demoOS : OS := ⟨4096, [], none, none, []⟩

/-! ## Reference behaviour, following the specification -/

def isTerminator (b : Byte) : Bool := b = asciiEOT || b = asciiLF || b = asciiCR

def isErase (b : Byte) : Bool := b = asciiBS || b = asciiDEL

/-- The reference line editor for a destination of `n` bytes: scan the bytes
left to right with a stack `st` (top at the end); stop when the stack holds
`n` bytes, at a terminator, or at the end of the stream; backspace and DEL pop
the top byte if there is one; any other byte is pushed. -/
def lineEdit (n : Nat) : List Byte → List Byte → List Byte
  | [], st => st
  | b :: bs, st =>
    if n ≤ st.length then st
    else if isTerminator b then st
    else if isErase b then lineEdit n bs st.dropLast
    else lineEdit n bs (st ++ [b])

/-- Index of the first terminator of `s`, or the length of `s` if none. -/
def firstTerminator (s : List Byte) : Nat := s.findIdx isTerminator

/-! ## Stepping the loop over a byte stream -/

theorem loop_full (getch : List Byte → Nat → Reader → List Byte × Reader × Option Error)
    (fuel : Nat) (rd : Reader) (out : List Byte) (i : Nat) (h : ¬ i < out.length) :
    ReadTo.loop getch (fuel + 1) rd out i = some ⟨i, none, out, rd⟩ := by
  simp [ReadTo.loop, h]

theorem loop_tty_nil (fuel : Nat) (fd : Option Bool) (mk : Option Error) (out : List Byte)
    (i : Nat) :
    ReadTo.loop getchTTY (fuel + 1) ⟨fd, mk, []⟩ out i = some ⟨i, none, out, ⟨fd, mk, []⟩⟩ := by
  by_cases h : i < out.length <;> simp [ReadTo.loop, h, getchTTY, Reader.Read]

theorem loop_normal_nil (fuel : Nat) (fd : Option Bool) (mk : Option Error) (out : List Byte)
    (i : Nat) :
    ReadTo.loop getchNormal (fuel + 1) ⟨fd, mk, []⟩ out i
      = some ⟨i, none, out, ⟨fd, mk, []⟩⟩ := by
  by_cases h : i < out.length <;> simp [ReadTo.loop, h, getchNormal, Reader.Read]

theorem getD_set_self (out : List Byte) (i : Nat) (b : Byte) (h : i < out.length) :
    (out.set i b).getD i 0 = b := by
  simp [List.getD_eq_getElem?_getD, h]

theorem loop_tty_cons (fuel : Nat) (fd : Option Bool) (mk : Option Error) (b : Byte)
    (s : List Byte) (out : List Byte) (i : Nat) (h : i < out.length) :
    ReadTo.loop getchTTY (fuel + 1) ⟨fd, mk, byteScript (b :: s)⟩ out i =
      if b = asciiETX then
        some ⟨0, some Error.ErrInterrupted, out.set i b, ⟨fd, mk, byteScript s⟩⟩
      else if isErase b then
        ReadTo.loop getchTTY fuel ⟨fd, mk, byteScript s⟩ (out.set i b) (i - 1)
      else if isTerminator b then
        some ⟨i, none, out.set i b, ⟨fd, mk, byteScript s⟩⟩
      else
        ReadTo.loop getchTTY fuel ⟨fd, mk, byteScript s⟩ (out.set i b) (i + 1) := by
  have hg := getD_set_self out i b h
  by_cases h1 : b = asciiETX
  · simp [ReadTo.loop, h, getchTTY, Reader.Read, byteScript, hg, h1]
  by_cases h2 : isErase b
  · have h2' : b = asciiBS ∨ b = asciiDEL := by simpa [isErase] using h2
    have hi : (if i > 0 then i - 1 else i) = i - 1 := by split <;> omega
    simp [ReadTo.loop, h, getchTTY, Reader.Read, byteScript, hg, h1, h2, h2', hi]
  have h2' : ¬ (b = asciiBS ∨ b = asciiDEL) := by simpa [isErase] using h2
  by_cases h3 : isTerminator b
  · have h3' : b = asciiEOT ∨ b = asciiLF ∨ b = asciiCR := by simpa [isTerminator, or_assoc] using h3
    simp [ReadTo.loop, h, getchTTY, Reader.Read, byteScript, hg, h1, h2, h2', h3, h3']
  have h3' : ¬ (b = asciiEOT ∨ b = asciiLF ∨ b = asciiCR) := by simpa [isTerminator, or_assoc] using h3
  simp [ReadTo.loop, h, getchTTY, Reader.Read, byteScript, hg, h1, h2, h2', h3, h3']

theorem loop_normal_cons (fuel : Nat) (fd : Option Bool) (mk : Option Error) (b : Byte)
    (s : List Byte) (out : List Byte) (i : Nat) (h : i < out.length) :
    ReadTo.loop getchNormal (fuel + 1) ⟨fd, mk, byteScript (b :: s)⟩ out i =
      if isTerminator b then
        some ⟨i, none, out.set i b, ⟨fd, mk, byteScript s⟩⟩
      else
        ReadTo.loop getchNormal fuel ⟨fd, mk, byteScript s⟩ (out.set i b) (i + 1) := by
  have hg := getD_set_self out i b h
  by_cases h3 : isTerminator b
  · have h3' : b = asciiEOT ∨ b = asciiLF ∨ b = asciiCR := by simpa [isTerminator, or_assoc] using h3
    simp [ReadTo.loop, h, getchNormal, Reader.Read, byteScript, hg, h3, h3']
  have h3' : ¬ (b = asciiEOT ∨ b = asciiLF ∨ b = asciiCR) := by simpa [isTerminator, or_assoc] using h3
  simp [ReadTo.loop, h, getchNormal, Reader.Read, byteScript, hg, h3, h3']

/-! ## Prefixes of a destination under single-byte writes -/

theorem take_set_le (out : List Byte) (b : Byte) :
    ∀ (i j : Nat), j ≤ i → (out.set i b).take j = out.take j := by
  induction out with
  | nil => intro i j _; simp
  | cons a out ih =>
    intro i j h
    cases j with
    | zero => simp
    | succ j =>
      cases i with
      | zero => omega
      | succ i => simp [ih i j (by omega)]

theorem take_set_succ (out : List Byte) (b : Byte) :
    ∀ (i : Nat), i < out.length → (out.set i b).take (i + 1) = out.take i ++ [b] := by
  induction out with
  | nil => intro i h; simp at h
  | cons a out ih =>
    intro i h
    cases i with
    | zero => simp
    | succ i => simp [ih i (by simpa using h)]

theorem take_pred (out : List Byte) (i : Nat) (h : i ≤ out.length) :
    out.take (i - 1) = (out.take i).dropLast := by
  rw [List.dropLast_eq_take, List.take_take, List.length_take]
  congr 1
  omega

theorem erase_not_terminator (b : Byte) (h : isErase b = true) : isTerminator b = false := by
  have h' : b = asciiBS ∨ b = asciiDEL := by simpa [isErase] using h
  rcases h' with h' | h' <;> subst h' <;> decide

/-! ## The interactive loop against the reference editor -/

theorem loop_tty_lineEdit (fd : Option Bool) (mk : Option Error) (s : List Byte) :
    ∀ (fuel : Nat) (out : List Byte) (i : Nat), s.length < fuel → i ≤ out.length →
      (∀ b ∈ s, b ≠ asciiETX) →
      ∃ r, ReadTo.loop getchTTY fuel ⟨fd, mk, byteScript s⟩ out i = some r ∧ r.err = none ∧
        r.n = (lineEdit out.length s (out.take i)).length ∧
        r.out.take r.n = lineEdit out.length s (out.take i) ∧
        r.out.length = out.length := by
  induction s with
  | nil =>
    intro fuel out i hf hi _
    obtain ⟨f, rfl⟩ : ∃ f, fuel = f + 1 := ⟨fuel - 1, by simp at hf; omega⟩
    refine ⟨_, loop_tty_nil f fd mk out i, rfl, ?_, ?_, rfl⟩ <;> simp [lineEdit, hi]
  | cons b s ih =>
    intro fuel out i hf hi hs
    obtain ⟨f, rfl⟩ : ∃ f, fuel = f + 1 := ⟨fuel - 1, by simp at hf; omega⟩
    have hf' : s.length < f := by simpa using hf
    have hs' : ∀ c ∈ s, c ≠ asciiETX := fun c hc => hs c (List.mem_cons_of_mem _ hc)
    have hb : b ≠ asciiETX := hs b (List.mem_cons_self _ _)
    have hlen : (out.take i).length = i := by simp [hi]
    by_cases hlt : i < out.length
    · rw [loop_tty_cons f fd mk b s out i hlt]
      have hn : ¬ out.length ≤ (out.take i).length := by omega
      have hn2 : ¬ out.length ≤ i := by omega
      by_cases h2 : isErase b = true
      · have h3 := erase_not_terminator b h2
        obtain ⟨r, hr, he, hn', ht, hl⟩ := ih f (out.set i b) (i - 1) hf' (by simp; omega) hs'
        refine ⟨r, ?_, he, ?_, ?_, ?_⟩
        · simp [hb, h2, hr]
        · simp [lineEdit, hn, hn2, h2, h3, hn', take_set_le out b i (i - 1) (by omega),
            take_pred out i hi]
        · simp [lineEdit, hn, hn2, h2, h3, ht, take_set_le out b i (i - 1) (by omega),
            take_pred out i hi]
        · simpa using hl
      · by_cases h3 : isTerminator b = true
        · refine ⟨⟨i, none, out.set i b, ⟨fd, mk, byteScript s⟩⟩, ?_, rfl, ?_, ?_, ?_⟩
          · simp [hb, h2, h3]
          · simp [lineEdit, hn, hn2, h3, hi]
          · simp [lineEdit, hn, hn2, h3, take_set_le out b i i (le_refl _)]
          · simp
        · obtain ⟨r, hr, he, hn', ht, hl⟩ := ih f (out.set i b) (i + 1) hf' (by simp; omega) hs'
          refine ⟨r, ?_, he, ?_, ?_, ?_⟩
          · simp [hb, h2, h3, hr]
          · simp [lineEdit, hn, hn2, h2, h3, hn', take_set_succ out b i hlt]
          · simp [lineEdit, hn, hn2, h2, h3, ht, take_set_succ out b i hlt]
          · simpa using hl
    · have hie : i = out.length := by omega
      refine ⟨_, loop_full getchTTY f _ out i hlt, rfl, ?_, ?_, rfl⟩ <;>
        simp [lineEdit, hlen, hie]

/-- Running the interactive loop over a prefix of ordinary and erasing bytes
that never fills the destination: the loop arrives at the rest of the stream
holding exactly what the reference editor holds, and has written only below
index `i + pre.length`. -/
theorem loop_tty_run (fd : Option Bool) (mk : Option Error) (rest : List Byte)
    (pre : List Byte) :
    ∀ (fuel : Nat) (out : List Byte) (i : Nat), i ≤ out.length →
      (∀ b ∈ pre, b ≠ asciiETX ∧ isTerminator b = false) →
      (lineEdit out.length pre (out.take i)).length < out.length →
      ∃ out1 : List Byte, out1.length = out.length ∧
        out1.take (lineEdit out.length pre (out.take i)).length
          = lineEdit out.length pre (out.take i) ∧
        (lineEdit out.length pre (out.take i)).length ≤ i + pre.length ∧
        (∀ j, i + pre.length ≤ j → out1[j]? = out[j]?) ∧
        ReadTo.loop getchTTY (fuel + pre.length) ⟨fd, mk, byteScript (pre ++ rest)⟩ out i
          = ReadTo.loop getchTTY fuel ⟨fd, mk, byteScript rest⟩ out1
              (lineEdit out.length pre (out.take i)).length := by
  induction pre with
  | nil =>
    intro fuel out i hi _ _
    exact ⟨out, rfl, by simp [lineEdit, hi], by simp [lineEdit, hi], fun _ _ => rfl,
      by simp [lineEdit, hi]⟩
  | cons b pre ih =>
    intro fuel out i hi hs hroom
    have hlen : (out.take i).length = i := by simp [hi]
    have hlt : i < out.length := by
      by_contra hge
      have : out.length ≤ (out.take i).length := by omega
      have e : lineEdit out.length (b :: pre) (out.take i) = out.take i := by
        rw [lineEdit]; exact if_pos this
      rw [e] at hroom
      omega
    have hn : ¬ out.length ≤ (out.take i).length := by omega
    have hn2 : ¬ out.length ≤ i := by omega
    obtain ⟨hb, h3⟩ := hs b (List.mem_cons_self _ _)
    have hs' : ∀ c ∈ pre, c ≠ asciiETX ∧ isTerminator c = false :=
      fun c hc => hs c (List.mem_cons_of_mem _ hc)
    have hfu : fuel + (b :: pre).length = (fuel + pre.length) + 1 := by simp; omega
    rw [hfu, List.cons_append, loop_tty_cons (fuel + pre.length) fd mk b (pre ++ rest) out i hlt]
    by_cases h2 : isErase b = true
    · have e1 : lineEdit out.length (b :: pre) (out.take i)
          = lineEdit (out.set i b).length pre ((out.set i b).take (i - 1)) := by
        simp [lineEdit, hn, hn2, h2, h3, take_set_le out b i (i - 1) (by omega),
          take_pred out i hi]
      rw [e1] at hroom ⊢
      have hroom' : (lineEdit (out.set i b).length pre ((out.set i b).take (i - 1))).length
          < (out.set i b).length := by simpa using hroom
      obtain ⟨out1, hl, ht, hk, hfr, hrun⟩ :=
        ih fuel (out.set i b) (i - 1) (by simp; omega) hs' hroom'
      refine ⟨out1, by simpa using hl, ht, ?_, ?_, ?_⟩
      · simp only [List.length_cons]; omega
      · intro j hj
        simp only [List.length_cons] at hj
        rw [hfr j (by omega), List.getElem?_set_ne (by omega)]
      · simp [hb, h2, hrun]
    · have e1 : lineEdit out.length (b :: pre) (out.take i)
          = lineEdit (out.set i b).length pre ((out.set i b).take (i + 1)) := by
        simp [lineEdit, hn, hn2, h2, h3, take_set_succ out b i hlt]
      rw [e1] at hroom ⊢
      have hroom' : (lineEdit (out.set i b).length pre ((out.set i b).take (i + 1))).length
          < (out.set i b).length := by simpa using hroom
      obtain ⟨out1, hl, ht, hk, hfr, hrun⟩ :=
        ih fuel (out.set i b) (i + 1) (by simp; omega) hs' hroom'
      refine ⟨out1, by simpa using hl, ht, ?_, ?_, ?_⟩
      · simp only [List.length_cons]; omega
      · intro j hj
        simp only [List.length_cons] at hj
        rw [hfr j (by omega), List.getElem?_set_ne (by omega)]
      · simp [hb, h2, h3, hrun]

/-- Running the non-interactive loop over a prefix without terminators that
fits into the destination. -/
theorem loop_normal_run (fd : Option Bool) (mk : Option Error) (rest : List Byte)
    (pre : List Byte) :
    ∀ (fuel : Nat) (out : List Byte) (i : Nat), i + pre.length ≤ out.length →
      (∀ b ∈ pre, isTerminator b = false) →
      ∃ out1 : List Byte, out1.length = out.length ∧
        out1.take (i + pre.length) = out.take i ++ pre ∧
        (∀ j, i + pre.length ≤ j → out1[j]? = out[j]?) ∧
        ReadTo.loop getchNormal (fuel + pre.length) ⟨fd, mk, byteScript (pre ++ rest)⟩ out i
          = ReadTo.loop getchNormal fuel ⟨fd, mk, byteScript rest⟩ out1 (i + pre.length) := by
  induction pre with
  | nil =>
    intro fuel out i _ _
    exact ⟨out, rfl, by simp, fun _ _ => rfl, by simp⟩
  | cons b pre ih =>
    intro fuel out i hi hs
    simp only [List.length_cons] at hi
    have hlt : i < out.length := by omega
    have h3 := hs b (List.mem_cons_self _ _)
    have hs' : ∀ c ∈ pre, isTerminator c = false :=
      fun c hc => hs c (List.mem_cons_of_mem _ hc)
    have hfu : fuel + (b :: pre).length = (fuel + pre.length) + 1 := by simp; omega
    rw [hfu, List.cons_append,
      loop_normal_cons (fuel + pre.length) fd mk b (pre ++ rest) out i hlt]
    obtain ⟨out1, hl, ht, hfr, hrun⟩ :=
      ih fuel (out.set i b) (i + 1) (by simp; omega) hs'
    have hidx : i + (b :: pre).length = i + 1 + pre.length := by simp; omega
    refine ⟨out1, by simpa using hl, ?_, ?_, ?_⟩
    · rw [hidx, ht, take_set_succ out b i hlt]; simp
    · intro j hj
      rw [hidx] at hj
      rw [hfr j hj, List.getElem?_set_ne (by omega)]
    · rw [hidx]; simp [h3, hrun]

/-- The non-interactive loop returns the bytes before the first terminator,
cut at the size of the destination. -/
theorem loop_normal_upto_terminator (fd : Option Bool) (mk : Option Error) (s : List Byte) :
    ∀ (fuel : Nat) (out : List Byte) (i : Nat), s.length < fuel → i ≤ out.length →
      ∃ r, ReadTo.loop getchNormal fuel ⟨fd, mk, byteScript s⟩ out i = some r ∧ r.err = none ∧
        r.n = min out.length (i + firstTerminator s) ∧
        r.out.take r.n = out.take i ++ s.take (r.n - i) ∧
        r.out.length = out.length := by
  induction s with
  | nil =>
    intro fuel out i hf hi
    obtain ⟨f, rfl⟩ : ∃ f, fuel = f + 1 := ⟨fuel - 1, by simp at hf; omega⟩
    refine ⟨_, loop_normal_nil f fd mk out i, rfl, ?_, ?_, rfl⟩ <;>
      simp [firstTerminator, hi]
  | cons b s ih =>
    intro fuel out i hf hi
    obtain ⟨f, rfl⟩ : ∃ f, fuel = f + 1 := ⟨fuel - 1, by simp at hf; omega⟩
    have hf' : s.length < f := by simpa using hf
    by_cases hlt : i < out.length
    · rw [loop_normal_cons f fd mk b s out i hlt]
      by_cases h3 : isTerminator b = true
      · refine ⟨⟨i, none, out.set i b, ⟨fd, mk, byteScript s⟩⟩, ?_, rfl, ?_, ?_, ?_⟩
        · simp [h3]
        · simp [firstTerminator, List.findIdx_cons, h3, hi]
        · simp [take_set_le out b i i (le_refl _)]
        · simp
      · obtain ⟨r, hr, he, hn', ht, hl⟩ := ih f (out.set i b) (i + 1) hf' (by simp; omega)
        have hft : firstTerminator (b :: s) = firstTerminator s + 1 := by
          simp [firstTerminator, List.findIdx_cons, h3]
        have hn2 : r.n = min out.length (i + firstTerminator (b :: s)) := by
          rw [hn', hft]; simp; omega
        have hge : i + 1 ≤ r.n := by rw [hn']; simp; omega
        refine ⟨r, ?_, he, hn2, ?_, ?_⟩
        · simp [h3, hr]
        · rw [ht, take_set_succ out b i hlt]
          obtain ⟨d, hd⟩ : ∃ d, r.n - i = d + 1 := ⟨r.n - i - 1, by omega⟩
          have hd' : r.n - (i + 1) = d := by omega
          rw [hd, hd']; simp
        · simpa using hl
    · have hie : i = out.length := by omega
      refine ⟨_, loop_full getchNormal f _ out i hlt, rfl, ?_, ?_, rfl⟩ <;> simp [hie]

/-! ## Rounding up to a page multiple -/

theorem and_not_mask (x k : Nat) (hx : x < 2 ^ 64) (hk : k ≤ 64) :
    x &&& (2 ^ 64 - 1 - (2 ^ k - 1)) = 2 ^ k * (x / 2 ^ k) := by
  have hpk : 2 ^ k ≤ 2 ^ 64 := Nat.pow_le_pow_right (by decide) hk
  have hpos : 0 < 2 ^ k := Nat.two_pow_pos k
  have e : 2 ^ 64 - 1 - (2 ^ k - 1) = 2 ^ 64 - ((2 ^ k - 1) + 1) := by omega
  have hlt : 2 ^ k - 1 < 2 ^ 64 := by omega
  apply Nat.eq_of_testBit_eq
  intro i
  rw [e, Nat.testBit_and, Nat.testBit_two_pow_sub_succ hlt, Nat.testBit_two_pow_sub_one,
    Nat.mul_comm, ← Nat.shiftRight_eq_div_pow, ← Nat.shiftLeft_eq, Nat.testBit_shiftLeft,
    Nat.testBit_shiftRight]
  by_cases h1 : i < k
  · simp [h1]
  · have h1' : k ≤ i := by omega
    have e2 : k + (i - k) = i := by omega
    by_cases h2 : i < 64
    · simp [h1, h1', h2, e2]
    · have : x.testBit i = false := by
        apply Nat.testBit_lt_two_pow
        exact lt_of_lt_of_le hx (Nat.pow_le_pow_right (by decide) (by omega))
      simp [h1, h2, this, e2]

/-- With a power of two as page size, `align2Up` clears the low bits of
`v - 1` and adds one page, all modulo the word size. -/
theorem align2Up_pow (v k : Nat) (hk : k ≤ 63) :
    align2Up v (2 ^ k)
      = (2 ^ k * (intSub v 1 / 2 ^ k) + 2 ^ k) % 2 ^ 64 := by
  have hpk : 2 ^ k ≤ 2 ^ 63 := Nat.pow_le_pow_right (by decide) hk
  have hpos : 0 < 2 ^ k := Nat.two_pow_pos k
  have hx : intSub v 1 < 2 ^ 64 := by
    unfold intSub wordSize
    exact Nat.mod_lt _ (by decide)
  have hp1 : intSub (2 ^ k) 1 = 2 ^ k - 1 := by
    unfold intSub wordSize
    omega
  have hnot : intNot (2 ^ k - 1) = 2 ^ 64 - 1 - (2 ^ k - 1) := by
    unfold intNot wordSize
    have : (2 ^ k - 1) % 2 ^ 64 = 2 ^ k - 1 := Nat.mod_eq_of_lt (by omega)
    rw [this]
  unfold align2Up intAdd intAnd
  rw [hp1, hnot, and_not_mask _ k hx (by omega)]
  rfl

theorem intSub_one_pos (v : Nat) (h0 : 0 < v) (hv : v < 2 ^ 64) : intSub v 1 = v - 1 := by
  unfold intSub wordSize
  omega

/-- For a size that together with one page fits the machine `int`, `align2Up`
is one page above the largest page multiple below the size. -/
theorem align2Up_exact (s k : Nat) (hs : 0 < s) (hov : s + 2 ^ k < 2 ^ 63) :
    align2Up s (2 ^ k) = 2 ^ k * ((s - 1) / 2 ^ k) + 2 ^ k := by
  have hpos : 0 < 2 ^ k := Nat.two_pow_pos k
  have hk : k ≤ 63 := by
    by_contra h
    have : 2 ^ 63 < 2 ^ k := Nat.pow_lt_pow_right (by decide) (by omega)
    omega
  rw [align2Up_pow s k hk, intSub_one_pos s hs (by omega)]
  have hle : 2 ^ k * ((s - 1) / 2 ^ k) ≤ s - 1 := Nat.mul_div_le _ _
  exact Nat.mod_eq_of_lt (by omega)

/-- When the mapping length computed by `makePasswd` is a positive `int`, the
requested size is a non-negative `int` not above it. -/
theorem size_le_align2Up (size k : Nat) (hk : k ≤ 62) (hsz : size < 2 ^ 64)
    (h0 : align2Up size (2 ^ k) ≠ 0) (hneg : align2Up size (2 ^ k) < 2 ^ 63) :
    size < 2 ^ 63 ∧ size ≤ align2Up size (2 ^ k) := by
  have hpk : 2 ^ k ≤ 2 ^ 62 := Nat.pow_le_pow_right (by decide) hk
  have hpos : 0 < 2 ^ k := Nat.two_pow_pos k
  rw [align2Up_pow size k (by omega)] at h0 hneg ⊢
  have hx : intSub size 1 < 2 ^ 64 := by
    unfold intSub wordSize
    exact Nat.mod_lt _ (by decide)
  have hxv : (size = 0 ∧ intSub size 1 = 2 ^ 64 - 1) ∨ (0 < size ∧ intSub size 1 = size - 1) := by
    unfold intSub wordSize
    omega
  generalize intSub size 1 = x at *
  have hle : 2 ^ k * (x / 2 ^ k) ≤ x := Nat.mul_div_le _ _
  have hgt : x < 2 ^ k * (x / 2 ^ k) + 2 ^ k := by
    have := Nat.lt_succ_self 0
    have h := Nat.div_add_mod x (2 ^ k)
    have h2 := Nat.mod_lt x hpos
    omega
  have hW : (2 : Nat) ^ 64 = 2 ^ k * 2 ^ (64 - k) := by
    rw [← Nat.pow_add]; congr 1; omega
  have hq : x / 2 ^ k < 2 ^ (64 - k) := by
    rw [Nat.div_lt_iff_lt_mul hpos, Nat.mul_comm, ← hW]; exact hx
  have hcap : 2 ^ k * (x / 2 ^ k) + 2 ^ k ≤ 2 ^ 64 := by
    have h1 : 2 ^ k * (x / 2 ^ k + 1) ≤ 2 ^ k * 2 ^ (64 - k) := Nat.mul_le_mul_left _ hq
    rw [← hW, Nat.mul_succ] at h1
    exact h1
  generalize 2 ^ k * (x / 2 ^ k) = a at *
  by_cases hlt : a + 2 ^ k < 2 ^ 64
  · rw [Nat.mod_eq_of_lt hlt] at h0 hneg ⊢
    omega
  · exfalso
    apply h0
    have : a + 2 ^ k = 2 ^ 64 := by omega
    rw [this]
    exact Nat.mod_self _

/-! ## Wiping and freeing -/

theorem zeroFrom_length (k : Nat) : ∀ (bs : List Byte) (start : Nat),
    (zeroFrom bs start k).length = bs.length := by
  induction k with
  | zero => intro bs start; rfl
  | succ k ih => intro bs start; simp [zeroFrom, ih]

theorem zeroFrom_getElem? (k : Nat) : ∀ (bs : List Byte) (start j : Nat),
    (zeroFrom bs start k)[j]? =
      if start ≤ j ∧ j < start + k ∧ j < bs.length then some 0 else bs[j]? := by
  induction k with
  | zero =>
    intro bs start j
    have : ¬ (start ≤ j ∧ j < start + 0 ∧ j < bs.length) := by omega
    rw [if_neg this, zeroFrom]
  | succ k ih =>
    intro bs start j
    rw [zeroFrom, ih]
    by_cases h1 : start = j
    · subst h1
      by_cases h2 : start < bs.length
      · simp [h2]
      · have e1 : (bs.set start 0)[start]? = none := List.getElem?_eq_none (by simp; omega)
        have e2 : bs[start]? = none := List.getElem?_eq_none (by omega)
        simp [h2, e1, e2]
    · rw [List.getElem?_set_ne h1]
      by_cases h3 : start ≤ j ∧ j < start + (k + 1) ∧ j < bs.length
      · have : start + 1 ≤ j ∧ j < start + 1 + k ∧ j < (bs.set start 0).length := by
          simp; omega
        rw [if_pos this, if_pos h3]
      · have : ¬ (start + 1 ≤ j ∧ j < start + 1 + k ∧ j < (bs.set start 0).length) := by
          simp; simp at h3; omega
        rw [if_neg this, if_neg h3]

theorem zeroFrom_all (bs : List Byte) : zeroFrom bs 0 bs.length = List.replicate bs.length 0 := by
  apply List.ext_getElem?
  intro j
  rw [zeroFrom_getElem?]
  by_cases h : j < bs.length
  · simp [h]
  · have e1 : bs[j]? = none := List.getElem?_eq_none (by omega)
    have e2 : (List.replicate bs.length (0 : Byte))[j]? = none :=
      List.getElem?_eq_none (by simp; omega)
    simp [h, e1, e2]

theorem region_lt (os : OS) (n : Nat) (r : Region) (h : os.region n = some r) :
    n < os.regions.length := by
  by_contra hn
  simp [OS.region, List.getD_eq_getElem?_getD, List.getElem?_eq_none (by omega : os.regions.length ≤ n)] at h

theorem region_setRegion (os : OS) (n : Nat) (r : Region) (x : Option Region)
    (h : os.region n = some r) : (os.setRegion n x).region n = x := by
  have hlt := region_lt os n r h
  simp [OS.region, OS.setRegion, List.getD_eq_getElem?_getD, hlt]

theorem setRegion_setRegion (os : OS) (n : Nat) (x y : Option Region) :
    (os.setRegion n x).setRegion n y = os.setRegion n y := by
  simp [OS.setRegion]

theorem setRegion_self (os : OS) (n : Nat) (r : Region) (h : os.region n = some r) :
    os.setRegion n (some r) = os := by
  have hlt := region_lt os n r h
  have hget : os.regions[n] = some r := by
    simpa [OS.region, List.getD_eq_getElem?_getD, hlt] using h
  cases os with
  | mk pagesize regions mmapErr mlockErr log =>
    simp only [OS.setRegion, OS.mk.injEq, true_and, and_true]
    apply List.ext_getElem?
    intro j
    by_cases hj : n = j
    · subst hj
      simp at hlt hget
      simp [hlt, hget]
    · rw [List.getElem?_set_ne hj]

/-- The zeroing loop over a valid slice returns, having zeroed exactly the
`k` bytes from index `i` on. -/
theorem wipe_loop_ret (p : Slice) (k : Nat) : ∀ (i : Nat) (os : OS) (r : Region),
    os.region p.region = some r → i + k ≤ p.len → p.off + p.len ≤ r.bytes.length →
    Password.Wipe.loop p k i os
      = .ret (os.setRegion p.region (some { r with bytes := zeroFrom r.bytes (p.off + i) k })) := by
  induction k with
  | zero =>
    intro i os r hr _ _
    simp [Password.Wipe.loop, zeroFrom, setRegion_self os p.region r hr]
  | succ k ih =>
    intro i os r hr hik hb
    have h1 : i < p.len := by omega
    have h2 : p.off + i < r.bytes.length := by omega
    have hstep : os.setByte p i 0
        = .ret (os.setRegion p.region (some { r with bytes := r.bytes.set (p.off + i) 0 })) := by
      simp [OS.setByte, h1, hr, h2, OS.setRegion]
    rw [Password.Wipe.loop, hstep]
    simp only
    rw [ih (i + 1) _ { r with bytes := r.bytes.set (p.off + i) 0 }
      (region_setRegion os p.region r _ hr) (by omega) (by simpa using hb)]
    simp [setRegion_setRegion, zeroFrom, Nat.add_assoc]

theorem wipe_ret (os : OS) (s : Slice) (r : Region) (hr : os.region s.region = some r)
    (hb : s.off + s.cap ≤ r.bytes.length) :
    Password.Wipe os (some s)
      = .ret (os.setRegion s.region (some { r with bytes := zeroFrom r.bytes s.off s.cap })) := by
  have := wipe_loop_ret { s with len := s.cap } s.cap 0 os r hr (by simp) (by simpa using hb)
  simpa [Password.Wipe] using this

theorem zeroFrom_idem (bs : List Byte) (start k : Nat) :
    zeroFrom (zeroFrom bs start k) start k = zeroFrom bs start k := by
  apply List.ext_getElem?
  intro j
  rw [zeroFrom_getElem?, zeroFrom_getElem?, zeroFrom_length]
  split <;> rfl

/-- C4: on a non-nil Password whose capacity lies in accessible memory,
whatever its length, Wipe returns and leaves every byte of the full capacity
zero; wiping again changes nothing, and Wipe on the nil Password does
nothing. -/
theorem Wipe_zeroes_capacity (os : OS) (s : Slice) (r : Region)
    (hr : os.region s.region = some r) (hb : s.off + s.cap ≤ r.bytes.length) :
    ∃ os1, Password.Wipe os (some s) = .ret os1 ∧
      (∀ i, i < s.cap → os1.byteAt s i = some 0) ∧
      Password.Wipe os1 (some s) = .ret os1 ∧
      Password.Wipe os none = .ret os := by
  refine ⟨_, wipe_ret os s r hr hb, ?_, ?_, rfl⟩
  · intro i hi
    have hreg := region_setRegion os s.region r
      (some { r with bytes := zeroFrom r.bytes s.off s.cap }) hr
    have hc : s.off ≤ s.off + i ∧ s.off + i < s.off + s.cap ∧ s.off + i < r.bytes.length := by
      omega
    simp only [OS.byteAt, hreg, if_pos hi]
    rw [zeroFrom_getElem?, if_pos hc]
  · have hreg := region_setRegion os s.region r
      (some { r with bytes := zeroFrom r.bytes s.off s.cap }) hr
    rw [wipe_ret _ s _ hreg (by simpa [zeroFrom_length] using hb)]
    simp [setRegion_setRegion, zeroFrom_idem]

theorem Wipe_zeroes_capacity_witness :
    ∃ os1, Password.Wipe ⟨4096, [some ⟨[1, 2, 3, 4, 5, 6], true, true⟩], none, none, []⟩
        (some ⟨0, 0, 2, 6⟩) = .ret os1 ∧
      (∀ i, i < 6 → os1.byteAt ⟨0, 0, 2, 6⟩ i = some 0) ∧
      Password.Wipe os1 (some ⟨0, 0, 2, 6⟩) = .ret os1 ∧
      Password.Wipe ⟨4096, [some ⟨[1, 2, 3, 4, 5, 6], true, true⟩], none, none, []⟩ none
        = .ret ⟨4096, [some ⟨[1, 2, 3, 4, 5, 6], true, true⟩], none, none, []⟩ :=
  Wipe_zeroes_capacity ⟨4096, [some ⟨[1, 2, 3, 4, 5, 6], true, true⟩], none, none, []⟩
    ⟨0, 0, 2, 6⟩ ⟨[1, 2, 3, 4, 5, 6], true, true⟩ (by decide) (by decide)

theorem live_unpack (os : OS) (s : Slice) (h : os.live (some s) = true) :
    ∃ r, os.region s.region = some r ∧ r.active = true ∧ s.off = 0 ∧
      s.cap = r.bytes.length ∧ 0 < s.cap ∧ s.len ≤ s.cap := by
  unfold OS.live at h
  cases hr : os.region s.region with
  | none => simp [hr] at h
  | some r =>
    simp [hr] at h
    exact ⟨r, rfl, h.1.1.1.1, h.1.1.1.2, h.1.1.2, h.1.2, h.2⟩

theorem munmap_ok (os : OS) (data : Slice) (r : Region)
    (hr : os.region data.region = some r) (ha : r.active = true) (ho : data.off = 0)
    (hc : data.cap = r.bytes.length) (hl : data.len = data.cap) (hpos : 0 < data.cap) :
    Munmap os data =
      ({ os with
          regions := os.regions.set data.region none
          log := os.log ++ [Syscall.munmap data.region r.bytes] }, none) := by
  have hne : ¬ (data.len = 0 ∨ data.len ≠ data.cap) := by omega
  have hok : r.active = true ∧ data.off = 0 ∧ data.cap = r.bytes.length := ⟨ha, ho, hc⟩
  unfold Munmap
  rw [if_neg hne, hr]
  simp only
  rw [if_pos hok]

theorem free_live (os : OS) (s : Slice) (r : Region) (hr : os.region s.region = some r)
    (ha : r.active = true) (ho : s.off = 0) (hc : s.cap = r.bytes.length) (hpos : 0 < s.cap) :
    Password.Free os (some s) =
      .ret ({ os with
              regions := os.regions.set s.region none
              log := os.log ++ [Syscall.munmap s.region (List.replicate s.cap 0)] }, none) := by
  have hw := wipe_ret os s r hr (by omega)
  have hreg := region_setRegion os s.region r
    (some { r with bytes := zeroFrom r.bytes s.off s.cap }) hr
  have hz : zeroFrom r.bytes s.off s.cap = List.replicate s.cap 0 := by
    rw [ho, hc]; exact zeroFrom_all r.bytes
  have hm := munmap_ok _ { s with len := s.cap } _ hreg ha ho
    (by simpa [zeroFrom_length] using hc) rfl hpos
  simp only [Password.Free, hw]
  rw [hm]
  simp [OS.setRegion, hz]

/-- C6: Free on a live handle returns (it does not panic), having released
the mapping with one munmap at a moment when every byte of its capacity was
zero, and leaves the handle nil; Free on that handle again, as on any nil
handle, returns with the state unchanged. -/
theorem Free_idempotent (os : OS) (s : Slice) (h : os.live (some s) = true) :
    ∃ os1, Password.Free os (some s) = .ret (os1, none) ∧
      os1.region s.region = none ∧
      os1.log = os.log ++ [Syscall.munmap s.region (List.replicate s.cap 0)] ∧
      Password.Free os1 none = .ret (os1, none) ∧
      ∀ os2 : OS, Password.Free os2 none = .ret (os2, none) := by
  obtain ⟨r, hr, ha, ho, hc, hpos, _⟩ := live_unpack os s h
  refine ⟨_, free_live os s r hr ha ho hc hpos, ?_, rfl, rfl, fun _ => rfl⟩
  have hlt := region_lt os s.region r hr
  simp [OS.region, List.getD_eq_getElem?_getD, hlt]

theorem Free_idempotent_witness :
    ∃ os1, Password.Free ⟨4096, [some ⟨[7, 7, 7, 7], true, true⟩], none, none, []⟩
        (some ⟨0, 0, 2, 4⟩) = .ret (os1, none) ∧
      os1.region 0 = none ∧
      os1.log = [] ++ [Syscall.munmap 0 (List.replicate 4 0)] ∧
      Password.Free os1 none = .ret (os1, none) ∧
      ∀ os2 : OS, Password.Free os2 none = .ret (os2, none) :=
  Free_idempotent ⟨4096, [some ⟨[7, 7, 7, 7], true, true⟩], none, none, []⟩ ⟨0, 0, 2, 4⟩
    (by decide)

/-! ## `ReadTo` returns for every reader -/

theorem read_shape (out : List Byte) (i : Nat) (rd : Reader) :
    ∃ out1 e, rd.Read out i = (out1, { rd with script := rd.script.tail }, e) ∧
      out1.length = out.length ∧ (rd.script = [] → e = some Error.EOF) := by
  cases rd with
  | mk fd mk script =>
    cases script with
    | nil => exact ⟨out, some Error.EOF, rfl, rfl, fun _ => rfl⟩
    | cons ev rest =>
      cases hd : ev.data with
      | none => exact ⟨out, ev.err, by simp [Reader.Read, hd], rfl, by simp⟩
      | some b => exact ⟨out.set i b, ev.err, by simp [Reader.Read, hd], by simp, by simp⟩

theorem getchTTY_ok : GetchOk getchTTY := by
  intro out i rd
  obtain ⟨out1, e, hread, hlen, heof⟩ := read_shape out i rd
  cases e with
  | some err => exact ⟨out1, some err, by simp [getchTTY, hread], hlen, heof⟩
  | none =>
    have hne : rd.script ≠ [] := fun h => by simpa using heof h
    simp only [getchTTY, hread]
    split_ifs <;> exact ⟨out1, _, rfl, hlen, fun h => absurd h hne⟩

theorem getchNormal_ok : GetchOk getchNormal := by
  intro out i rd
  obtain ⟨out1, e, hread, hlen, heof⟩ := read_shape out i rd
  cases e with
  | some err => exact ⟨out1, some err, by simp [getchNormal, hread], hlen, heof⟩
  | none =>
    have hne : rd.script ≠ [] := fun h => by simpa using heof h
    simp only [getchNormal, hread]
    split_ifs <;> exact ⟨out1, _, rfl, hlen, fun h => absurd h hne⟩

/-- With more iterations than events in the script the loop returns; the count
is within the destination, whose length is unchanged, and on error it is 0. -/
theorem loop_total (getch : List Byte → Nat → Reader → List Byte × Reader × Option Error)
    (hg : GetchOk getch) :
    ∀ (fuel : Nat) (rd : Reader) (out : List Byte) (i : Nat), rd.script.length < fuel →
      i ≤ out.length →
      ∃ r, ReadTo.loop getch fuel rd out i = some r ∧ r.n ≤ out.length ∧
        r.out.length = out.length ∧ (r.err ≠ none → r.n = 0) := by
  intro fuel
  induction fuel with
  | zero => intro rd out i hf; omega
  | succ f ih =>
    intro rd out i hf hi
    by_cases hlt : i < out.length
    · obtain ⟨out1, e, hget, hlen, heof⟩ := hg out i rd
      simp only [ReadTo.loop, if_pos hlt, hget]
      by_cases h1 : e = some Error.backspace
      · have hne : rd.script ≠ [] := fun h => by
          have := heof h; rw [h1] at this; cases this
        have hf' : ({ rd with script := rd.script.tail } : Reader).script.length < f := by
          have : 0 < rd.script.length := List.length_pos.mpr hne
          simp; omega
        obtain ⟨r, hr, hn, hl, he⟩ := ih { rd with script := rd.script.tail } out1
          (if i > 0 then i - 1 else i) hf' (by split <;> omega)
        exact ⟨r, by simp [h1, hr], by omega, by omega, he⟩
      · by_cases h2 : e = some Error.EOF
        · exact ⟨⟨i, none, out1, { rd with script := rd.script.tail }⟩, by simp [h2],
            by simp; omega, by simp [hlen], by simp⟩
        · by_cases h3 : e = none
          · have hne : rd.script ≠ [] := fun h => by
              have := heof h; rw [h3] at this; cases this
            have hf' : ({ rd with script := rd.script.tail } : Reader).script.length < f := by
              have : 0 < rd.script.length := List.length_pos.mpr hne
              simp; omega
            obtain ⟨r, hr, hn, hl, he⟩ := ih { rd with script := rd.script.tail } out1
              (i + 1) hf' (by omega)
            exact ⟨r, by simp [h3, hr], by omega, by omega, he⟩
          · exact ⟨⟨0, e, out1, { rd with script := rd.script.tail }⟩, by simp [h1, h2, h3],
              by simp, by simp [hlen], by simp⟩
    · exact ⟨_, loop_full getch f rd out i hlt, by simp; omega, rfl, by simp⟩

theorem ReadTo_total (rd : Reader) (out : List Byte) :
    ∃ r, ReadTo rd out = some r ∧ r.n ≤ out.length ∧ r.out.length = out.length ∧
      (r.err ≠ none → r.n = 0) := by
  unfold ReadTo
  split
  · split
    · exact ⟨_, rfl, by simp, rfl, by simp⟩
    · exact loop_total getchTTY getchTTY_ok _ rd out 0 (by omega) (by omega)
  · exact loop_total getchNormal getchNormal_ok _ rd out 0 (by omega) (by omega)

/-! ## `ReadSize` -/

theorem region_append_self (os : OS) (x : Option Region) (l : List Syscall) :
    ({ os with regions := os.regions ++ [x], log := l } : OS).region os.regions.length = x := by
  simp [OS.region, List.getD_eq_getElem?_getD]

/-- When the kernel grants the mapping and the lock, `makePasswd` returns a
handle of the requested length on a fresh, zero-filled, locked mapping of
`align2Up size pagesize` bytes. -/
theorem makePasswd_ok (os : OS) (size k : Nat) (hp : os.pagesize = 2 ^ k) (hk : k ≤ 62)
    (hsz : size < 2 ^ 64) (hmm : os.mmapErr = none) (hml : os.mlockErr = none)
    (h0 : align2Up size (2 ^ k) ≠ 0) (hneg : align2Up size (2 ^ k) < 2 ^ 63) :
    makePasswd os size =
      .ret ({ os with
              regions := os.regions ++
                [some ⟨List.replicate (align2Up size (2 ^ k)) 0, true, true⟩]
              log := os.log ++ [Syscall.mmap os.regions.length (align2Up size (2 ^ k)),
                Syscall.mlock os.regions.length] },
            some ⟨os.regions.length, 0, size, align2Up size (2 ^ k)⟩, none) := by
  obtain ⟨hs1, hs2⟩ := size_le_align2Up size k hk hsz h0 hneg
  have hmap : ¬ (align2Up size (2 ^ k) = 0 ∨ intNeg (align2Up size (2 ^ k)) = true) := by
    simp [intNeg]; omega
  have hsl : ¬ intNeg size = true ∧ size ≤ align2Up size (2 ^ k) := by
    simp [intNeg]; omega
  unfold makePasswd
  simp only [hp, Mmap, if_neg hmap, hmm]
  simp [Mlock, hml, hmm, OS.region, List.getD_eq_getElem?_getD, hsl]

theorem load_fresh (os : OS) (size cap : Nat) (l : List Syscall) (h : size ≤ cap) :
    ({ os with regions := os.regions ++ [some ⟨List.replicate cap 0, true, true⟩],
               log := l } : OS).load ⟨os.regions.length, 0, size, cap⟩
      = some (List.replicate size 0) := by
  simp [OS.load, region_append_self, h, List.take_replicate]

theorem store_fresh (os : OS) (size cap : Nat) (l : List Syscall) (data : List Byte) :
    ({ os with regions := os.regions ++ [some ⟨List.replicate cap 0, true, true⟩],
               log := l } : OS).store ⟨os.regions.length, 0, size, cap⟩ data
      = { os with regions := os.regions ++ [some ⟨data ++ List.replicate (cap - size) 0, true, true⟩],
                  log := l } := by
  simp [OS.store, region_append_self]

theorem ReadSize_not_both (os : OS) (rd : Reader) (size : Nat) :
    ∀ (os2 : OS) (rd2 : Reader) (p : Password) (e : Option Error),
      ReadSize os rd size = .ret (os2, rd2, p, e) → p = none ∨ e = none := by
  intro os2 rd2 p e h
  unfold ReadSize at h
  simp only at h
  generalize (if size = 0 then os.pagesize else size) = sz at h
  split at h
  · simp only [Outcome.ret.injEq, Prod.mk.injEq] at h
    exact Or.inl h.2.2.1.symm
  · simp only [Outcome.ret.injEq, Prod.mk.injEq] at h
    exact Or.inl h.2.2.1.symm
  · split at h
    · cases h
    · split at h
      · cases h
      · split at h
        · split at h
          · simp only [Outcome.ret.injEq, Prod.mk.injEq] at h
            exact Or.inl h.2.2.1.symm
          all_goals cases h
        · split at h
          · simp only [Outcome.ret.injEq, Prod.mk.injEq] at h
            exact Or.inr h.2.2.2.symm
          · cases h
  all_goals cases h

/-- C10: when the kernel grants the mapping and the lock, ReadSize runs
ReadTo on the fresh zero-filled buffer of the resolved size (one page for
size 0).  If ReadTo reports an error, ReadSize returns the nil Password with
that same error after releasing the mapping it created, every byte of which
was zero at that moment.  If ReadTo succeeds with count l, ReadSize returns a
live, locked Password of length l, l at most the resolved size, holding the
bytes read, and a nil error.  In no case does ReadSize return both a non-nil
Password and a non-nil error. -/
theorem ReadSize_no_leak (os : OS) (rd : Reader) (size sz k : Nat)
    (hp : os.pagesize = 2 ^ k) (hk : k ≤ 62) (hsize : size < 2 ^ 64)
    (hsz : sz = if size = 0 then os.pagesize else size)
    (hmm : os.mmapErr = none) (hml : os.mlockErr = none)
    (h0 : align2Up sz (2 ^ k) ≠ 0) (hneg : align2Up sz (2 ^ k) < 2 ^ 63) :
    ∃ r, ReadTo rd (List.replicate sz 0) = some r ∧
      (∀ e, r.err = some e →
        ∃ os2, ReadSize os rd size = .ret (os2, r.rd, none, some e) ∧
          os2.region os.regions.length = none ∧
          os2.log = os.log ++ [Syscall.mmap os.regions.length (align2Up sz (2 ^ k)),
            Syscall.mlock os.regions.length,
            Syscall.munmap os.regions.length (List.replicate (align2Up sz (2 ^ k)) 0)]) ∧
      (r.err = none →
        ∃ os2, ReadSize os rd size
            = .ret (os2, r.rd, some ⟨os.regions.length, 0, r.n, align2Up sz (2 ^ k)⟩, none) ∧
          r.n ≤ sz ∧
          os2.live (some ⟨os.regions.length, 0, r.n, align2Up sz (2 ^ k)⟩) = true ∧
          os2.region os.regions.length
            = some ⟨r.out ++ List.replicate (align2Up sz (2 ^ k) - sz) 0, true, true⟩ ∧
          os2.load ⟨os.regions.length, 0, r.n, align2Up sz (2 ^ k)⟩ = some (r.out.take r.n) ∧
          os2.log = os.log ++ [Syscall.mmap os.regions.length (align2Up sz (2 ^ k)),
            Syscall.mlock os.regions.length]) ∧
      (∀ (os2 : OS) (rd2 : Reader) (p : Password) (e : Option Error),
        ReadSize os rd size = .ret (os2, rd2, p, e) → p = none ∨ e = none) := by
  have hszlt : sz < 2 ^ 64 := by
    have : 2 ^ k ≤ 2 ^ 62 := Nat.pow_le_pow_right (by decide) hk
    rw [hsz, hp]; split <;> omega
  obtain ⟨_, hle⟩ := size_le_align2Up sz k hk hszlt h0 hneg
  have hmk := makePasswd_ok os sz k hp hk hszlt hmm hml h0 hneg
  obtain ⟨r, hr, hn, hl, _⟩ := ReadTo_total rd (List.replicate sz 0)
  have hl' : r.out.length = sz := by simpa using hl
  have hn' : r.n ≤ sz := by simpa using hn
  have hrun : ReadSize os rd size =
      (match r.err with
        | some err =>
          match Password.Free
            ({ os with
                regions := os.regions ++
                  [some ⟨r.out ++ List.replicate (align2Up sz (2 ^ k) - sz) 0, true, true⟩]
                log := os.log ++ [Syscall.mmap os.regions.length (align2Up sz (2 ^ k)),
                  Syscall.mlock os.regions.length] })
            (some ⟨os.regions.length, 0, sz, align2Up sz (2 ^ k)⟩) with
          | .ret (os, _) => .ret (os, r.rd, none, some err)
          | .panic => .panic
          | .fault => .fault
          | .diverge => .diverge
        | none =>
          .ret ({ os with
                regions := os.regions ++
                  [some ⟨r.out ++ List.replicate (align2Up sz (2 ^ k) - sz) 0, true, true⟩]
                log := os.log ++ [Syscall.mmap os.regions.length (align2Up sz (2 ^ k)),
                  Syscall.mlock os.regions.length] }, r.rd,
              some ⟨os.regions.length, 0, r.n, align2Up sz (2 ^ k)⟩, none)) := by
    unfold ReadSize
    simp only [← hsz, hmk, load_fresh os sz _ _ hle, hr, store_fresh]
    cases r.err with
    | some err => rfl
    | none =>
      have : r.n ≤ align2Up sz (2 ^ k) := by omega
      simp [this]
  refine ⟨r, hr, ?_, ?_, ReadSize_not_both os rd size⟩
  · intro e he
    rw [hrun, he]
    have hfree := free_live
      ({ os with
          regions := os.regions ++
            [some ⟨r.out ++ List.replicate (align2Up sz (2 ^ k) - sz) 0, true, true⟩]
          log := os.log ++ [Syscall.mmap os.regions.length (align2Up sz (2 ^ k)),
            Syscall.mlock os.regions.length] })
      ⟨os.regions.length, 0, sz, align2Up sz (2 ^ k)⟩
      ⟨r.out ++ List.replicate (align2Up sz (2 ^ k) - sz) 0, true, true⟩
      (region_append_self os _ _) rfl rfl (by simp [hl']; omega) (by simp; omega)
    simp only [hfree]
    refine ⟨_, rfl, ?_, ?_⟩
    · simp [OS.region, List.getD_eq_getElem?_getD]
    · simp
  · intro he
    rw [hrun, he]
    refine ⟨_, rfl, hn', ?_, region_append_self os _ _, ?_, rfl⟩
    · simp [OS.live, region_append_self, hl']
      omega
    · have h1 : r.n ≤ r.out.length + (align2Up sz (2 ^ k) - sz) := by omega
      have h2 : r.n ≤ r.out.length := by omega
      simp [OS.load, region_append_self, h1, List.take_append_of_le_length h2]

/-! ## Bytes taken from a non-interactive reader -/

theorem loop_normal_consumed (fd : Option Bool) (mk : Option Error) (s : List Byte) :
    ∀ (fuel : Nat) (out : List Byte) (i : Nat), s.length < fuel → i ≤ out.length →
      ∃ r, ReadTo.loop getchNormal fuel ⟨fd, mk, byteScript s⟩ out i = some r ∧
        r.rd.script.length ≤ s.length ∧
        s.length - r.rd.script.length ≤ out.length - i := by
  induction s with
  | nil =>
    intro fuel out i hf hi
    obtain ⟨f, rfl⟩ : ∃ f, fuel = f + 1 := ⟨fuel - 1, by simp at hf; omega⟩
    exact ⟨_, loop_normal_nil f fd mk out i, by simp, by simp⟩
  | cons b s ih =>
    intro fuel out i hf hi
    obtain ⟨f, rfl⟩ : ∃ f, fuel = f + 1 := ⟨fuel - 1, by simp at hf; omega⟩
    have hf' : s.length < f := by simpa using hf
    by_cases hlt : i < out.length
    · rw [loop_normal_cons f fd mk b s out i hlt]
      by_cases h3 : isTerminator b = true
      · refine ⟨⟨i, none, out.set i b, ⟨fd, mk, byteScript s⟩⟩, by simp [h3], ?_, ?_⟩
        · simp [byteScript]
        · simp [byteScript]; omega
      · obtain ⟨r, hr, h1, h2⟩ := ih f (out.set i b) (i + 1) hf' (by simp; omega)
        refine ⟨r, by simp [h3, hr], ?_, ?_⟩
        · simp only [List.length_cons]; omega
        · simp only [List.length_cons, List.length_set] at h2 ⊢; omega
    · refine ⟨_, loop_full getchNormal f _ out i hlt, ?_, ?_⟩
      · simp [byteScript]
      · simp [byteScript]

/-- Over a source that is not a terminal, `ReadTo` takes at most `len(out)`
bytes from the reader. -/
theorem ReadTo_normal_consumed_le (fd : Option Bool) (mk : Option Error) (s out : List Byte)
    (h : fd ≠ some true) :
    ∃ r, ReadTo ⟨fd, mk, byteScript s⟩ out = some r ∧
      consumed ⟨fd, mk, byteScript s⟩ r ≤ out.length := by
  obtain ⟨r, hr, _, h2⟩ :=
    loop_normal_consumed fd mk s ((byteScript s).length + 1) out 0
      (by simp [byteScript]) (Nat.zero_le _)
  refine ⟨r, ?_, ?_⟩
  · simpa [ReadTo, Reader.isTTY, h] using hr
  · simpa [consumed, byteScript] using h2

/-! ## Claims about `ReadTo` -/

/-- C1: over an interactive source delivering a byte stream without ETX,
ReadTo returns successfully, and its count and the bytes out[0..count) are
those of the reference line editor for a destination of len(out) bytes. -/
theorem ReadTo_interactive_lineEdit (s out : List Byte) (h : ∀ b ∈ s, b ≠ asciiETX) :
    ∃ r, ReadTo (ttyReader s) out = some r ∧ r.err = none ∧
      r.n = (lineEdit out.length s []).length ∧
      r.out.take r.n = lineEdit out.length s [] := by
  obtain ⟨r, hr, he, hn, ht, _⟩ :=
    loop_tty_lineEdit (some true) none s ((byteScript s).length + 1) out 0
      (by simp [byteScript]) (Nat.zero_le _) h
  refine ⟨r, ?_, he, by simpa using hn, by simpa using ht⟩
  simpa [ReadTo, ttyReader, Reader.isTTY] using hr

set_option maxRecDepth 100000 in
theorem ReadTo_interactive_lineEdit_witness :
    (∀ b ∈ ascii "bad\x08\x08\x08good password", b ≠ asciiETX) ∧
    (∃ r, ReadTo (ttyReader (ascii "bad\x08\x08\x08good password")) (List.replicate 256 0)
        = some r ∧ r.err = none ∧ r.n = 13 ∧ r.out.take r.n = ascii "good password") ∧
    (∃ r, ReadTo (ttyReader (ascii "pass\x04word")) (List.replicate 256 0)
        = some r ∧ r.err = none ∧ r.n = 4 ∧ r.out.take r.n = ascii "pass") := by
  have e1 : lineEdit (List.replicate 256 (0 : Byte)).length
      (ascii "bad\x08\x08\x08good password") [] = ascii "good password" := by decide
  have e2 : lineEdit (List.replicate 256 (0 : Byte)).length
      (ascii "pass\x04word") [] = ascii "pass" := by decide
  refine ⟨by decide, ?_, ?_⟩
  · obtain ⟨r, h1, h2, h3, h4⟩ := ReadTo_interactive_lineEdit
      (ascii "bad\x08\x08\x08good password") (List.replicate 256 0) (by decide)
    rw [e1] at h3 h4
    exact ⟨r, h1, h2, h3, h4⟩
  · obtain ⟨r, h1, h2, h3, h4⟩ := ReadTo_interactive_lineEdit
      (ascii "pass\x04word") (List.replicate 256 0) (by decide)
    rw [e2] at h3 h4
    exact ⟨r, h1, h2, h3, h4⟩

/-- C2: over a source that is not a terminal, delivering a byte stream s,
ReadTo returns successfully with count min(len(out), p), p the index of the
first terminator of s, and out[0..count) equal to s[0..count).  Backspace,
DEL and ETX do not occur in the definition of p: they are content. -/
theorem ReadTo_noninteractive_upto_terminator (fd : Option Bool) (mk : Option Error)
    (s out : List Byte) (h : fd ≠ some true) :
    ∃ r, ReadTo ⟨fd, mk, byteScript s⟩ out = some r ∧ r.err = none ∧
      r.n = min out.length (firstTerminator s) ∧ r.out.take r.n = s.take r.n := by
  obtain ⟨r, hr, he, hn, ht, _⟩ :=
    loop_normal_upto_terminator fd mk s ((byteScript s).length + 1) out 0
      (by simp [byteScript]) (Nat.zero_le _)
  refine ⟨r, ?_, he, by simpa using hn, by simpa using ht⟩
  simpa [ReadTo, Reader.isTTY, h] using hr

set_option maxRecDepth 100000 in
theorem ReadTo_noninteractive_upto_terminator_witness :
    (∃ r, ReadTo (plainReader (ascii "this is a password")) (List.replicate 256 0)
        = some r ∧ r.err = none ∧ r.n = 18 ∧ r.out.take r.n = ascii "this is a password") ∧
    (∃ r, ReadTo (plainReader (ascii "abc\n")) (List.replicate 256 0)
        = some r ∧ r.err = none ∧ r.n = 3 ∧ r.out.take r.n = ascii "abc") ∧
    (∃ r, ReadTo (plainReader (ascii "ab\x08\x7f\x03c\rd")) (List.replicate 256 0)
        = some r ∧ r.err = none ∧ r.n = 6 ∧ r.out.take r.n = ascii "ab\x08\x7f\x03c") := by
  refine ⟨?_, ?_, ?_⟩
  · obtain ⟨r, h1, h2, h3, h4⟩ := ReadTo_noninteractive_upto_terminator none none
      (ascii "this is a password") (List.replicate 256 0) (by decide)
    have e : min (List.replicate 256 (0 : Byte)).length
        (firstTerminator (ascii "this is a password")) = 18 := by decide
    rw [e] at h3
    rw [h3] at h4
    exact ⟨r, h1, h2, h3, by rw [h3, h4]; decide⟩
  · obtain ⟨r, h1, h2, h3, h4⟩ := ReadTo_noninteractive_upto_terminator none none
      (ascii "abc\n") (List.replicate 256 0) (by decide)
    have e : min (List.replicate 256 (0 : Byte)).length
        (firstTerminator (ascii "abc\n")) = 3 := by decide
    rw [e] at h3
    rw [h3] at h4
    exact ⟨r, h1, h2, h3, by rw [h3, h4]; decide⟩
  · obtain ⟨r, h1, h2, h3, h4⟩ := ReadTo_noninteractive_upto_terminator none none
      (ascii "ab\x08\x7f\x03c\rd") (List.replicate 256 0) (by decide)
    have e : min (List.replicate 256 (0 : Byte)).length
        (firstTerminator (ascii "ab\x08\x7f\x03c\rd")) = 6 := by decide
    rw [e] at h3
    rw [h3] at h4
    exact ⟨r, h1, h2, h3, by rw [h3, h4]; decide⟩

/-- C3: over an interactive source, when an ETX byte follows a prefix that
holds no ETX and no terminator and during which the reference editor never
holds len(out) bytes, ReadTo returns ErrInterrupted, whatever follows the
ETX. -/
theorem ReadTo_interrupt (pre post out : List Byte)
    (hpre : ∀ b ∈ pre, b ≠ asciiETX ∧ isTerminator b = false)
    (hroom : (lineEdit out.length pre []).length < out.length) :
    ∃ r, ReadTo (ttyReader (pre ++ asciiETX :: post)) out = some r ∧
      r.err = some Error.ErrInterrupted := by
  obtain ⟨out1, hl, _, _, _, hrun⟩ :=
    loop_tty_run (some true) none (asciiETX :: post) pre (post.length + 2) out 0
      (Nat.zero_le _) hpre (by simpa using hroom)
  have hk : (lineEdit out.length pre []).length < out1.length := by omega
  have hfuel : (byteScript (pre ++ asciiETX :: post)).length + 1
      = post.length + 2 + pre.length := by simp [byteScript]; omega
  have hstep := loop_tty_cons (post.length + 1) (some true) none asciiETX post out1
    (lineEdit out.length pre []).length hk
  simp only [List.take_zero] at hrun
  refine ⟨⟨0, some Error.ErrInterrupted, out1.set (lineEdit out.length pre []).length asciiETX,
    ⟨some true, none, byteScript post⟩⟩, ?_, rfl⟩
  simp only [ReadTo, ttyReader, Reader.isTTY, decide_True, if_true, hfuel, hrun]
  rw [hstep, if_pos rfl]

set_option maxRecDepth 100000 in
theorem ReadTo_interrupt_witness :
    (∀ b ∈ ascii "pass", b ≠ asciiETX ∧ isTerminator b = false) ∧
    (lineEdit (List.replicate 256 (0 : Byte)).length (ascii "pass") []).length
      < (List.replicate 256 (0 : Byte)).length ∧
    ∃ r, ReadTo (ttyReader (ascii "pass" ++ asciiETX :: ascii "word")) (List.replicate 256 0)
        = some r ∧ r.err = some Error.ErrInterrupted :=
  ⟨by decide, by decide,
    ReadTo_interrupt (ascii "pass") (ascii "word") (List.replicate 256 0) (by decide) (by decide)⟩

set_option maxRecDepth 100000 in
/-- C7: on the interactive stream "pass" ETX "word" with a 256-byte
destination, ReadTo returns count 0 with ErrInterrupted, although the four
bytes "pass" were accepted into out before the interrupt; and when a
non-interactive source delivers "ab" and then fails, ReadTo returns count 0
with that error, although two bytes were accepted. -/
theorem ReadTo_error_count_is_zero :
    (ReadTo (ttyReader (ascii "pass\x03word")) (List.replicate 256 0)).map
        (fun r => (r.n, r.err, r.out.take 4))
      = some (0, some Error.ErrInterrupted, ascii "pass") ∧
    (ReadTo ⟨none, none, byteScript (ascii "ab") ++ [⟨none, some (Error.other 5)⟩]⟩
        (List.replicate 256 0)).map (fun r => (r.n, r.err, r.out.take 2))
      = some (0, some (Error.other 5), ascii "ab") := by
  constructor <;> decide

/-- C8: on the interactive stream "bad" BS BS BS "good password" with a
4-byte destination, ReadTo returns count 4 after taking 10 bytes from the
reader. -/
theorem ReadTo_consumes_beyond_len :
    (ReadTo (ttyReader (ascii "bad\x08\x08\x08good password")) (List.replicate 4 0)).map
        (fun r => (r.n, r.err, r.out,
          consumed (ttyReader (ascii "bad\x08\x08\x08good password")) r))
      = some (4, none, ascii "good", 10) := by
  decide

/-- C9, as stated, fails: on the non-interactive stream "abc" LF with a
4-byte all-zero destination, ReadTo succeeds with count 3 and out[3] holds
the LF, not the 0 it held before the call. -/
theorem terminator_stored_counterexample :
    ∃ r, ReadTo (plainReader (ascii "abc\n")) (List.replicate 4 0) = some r ∧
      r.err = none ∧ r.n = 3 ∧ r.n < (List.replicate 4 (0 : Byte)).length ∧
      r.out = [97, 98, 99, asciiLF] ∧
      ¬ (∀ j, r.n ≤ j → r.out[j]? = (List.replicate 4 (0 : Byte))[j]?) := by
  refine ⟨⟨3, none, [97, 98, 99, asciiLF], ⟨none, none, []⟩⟩, by decide, rfl, rfl, by decide,
    rfl, ?_⟩
  intro h
  exact absurd (h 3 (le_refl _)) (by decide)

/-- C9, amended: for every reader delivering a byte stream, whether it is a
terminal in raw mode, has a descriptor that is not a terminal, or has no
descriptor at all: when a terminator follows a run of bytes without
terminators (and, over a terminal, without ETX) that leaves room in the
destination, ReadTo succeeds with a count k below len(out); out[0..k) holds
the accepted bytes only, the terminator is written to out[k], and every
destination byte at an index above the length of the run keeps its value.
Over a source that is not a terminal k is the length of the run, so exactly
the bytes after out[k] are unchanged. -/
theorem terminator_stored_at_count (fd : Option Bool) (mk : Option Error)
    (pre post out : List Byte) (t : Byte)
    (hraw : fd = some true → mk = none)
    (ht : isTerminator t = true)
    (hpre : ∀ b ∈ pre, isTerminator b = false ∧ (fd = some true → b ≠ asciiETX))
    (hroom : (if fd = some true then (lineEdit out.length pre []).length else pre.length)
      < out.length) :
    ∃ r, ReadTo ⟨fd, mk, byteScript (pre ++ t :: post)⟩ out = some r ∧
      r.err = none ∧
      r.n = (if fd = some true then (lineEdit out.length pre []).length else pre.length) ∧
      r.n < out.length ∧
      r.out.take r.n = (if fd = some true then lineEdit out.length pre [] else pre) ∧
      r.out[r.n]? = some t ∧
      (∀ j, pre.length < j → r.out[j]? = out[j]?) ∧
      (fd ≠ some true → ∀ j, r.n < j → r.out[j]? = out[j]?) := by
  have hfuel : (byteScript (pre ++ t :: post)).length + 1
      = post.length + 2 + pre.length := by simp [byteScript]; omega
  by_cases hfd : fd = some true
  · have hmk : mk = none := hraw hfd
    subst hfd
    subst hmk
    simp only [if_true] at hroom ⊢
    have hnotetx : t ≠ asciiETX := by
      intro h; subst h; exact absurd ht (by decide)
    have hnoter : isErase t = false := by
      cases h : isErase t with
      | false => rfl
      | true => rw [erase_not_terminator t h] at ht; cases ht
    obtain ⟨out1, hl, htk, hk, hfr, hrun⟩ :=
      loop_tty_run (some true) none (t :: post) pre (post.length + 2) out 0
        (Nat.zero_le _) (fun b hb => ⟨(hpre b hb).2 rfl, (hpre b hb).1⟩) (by simpa using hroom)
    simp only [List.take_zero, Nat.zero_add] at hrun htk hk hfr
    have hlt : (lineEdit out.length pre []).length < out1.length := by omega
    have hstep := loop_tty_cons (post.length + 1) (some true) none t post out1
      (lineEdit out.length pre []).length hlt
    refine ⟨⟨(lineEdit out.length pre []).length, none,
      out1.set (lineEdit out.length pre []).length t, ⟨some true, none, byteScript post⟩⟩,
      ?_, rfl, rfl, hroom, ?_, ?_, ?_, ?_⟩
    · simp only [ReadTo, Reader.isTTY, decide_True, if_true, hfuel, hrun]
      rw [hstep]
      simp [hnotetx, hnoter, ht]
    · simp only
      rw [take_set_le out1 t _ _ (le_refl _), htk]
    · simp [hlt]
    · intro j hj
      simp only
      rw [List.getElem?_set_ne (by omega), hfr j (by omega)]
    · intro h
      exact absurd rfl h
  · simp only [if_neg hfd] at hroom ⊢
    obtain ⟨out1, hl, htk, hfr, hrun⟩ :=
      loop_normal_run fd mk (t :: post) pre (post.length + 2) out 0
        (by simpa using Nat.le_of_lt hroom) (fun b hb => (hpre b hb).1)
    simp only [List.take_zero, Nat.zero_add, List.nil_append] at hrun htk hfr
    have hlt : pre.length < out1.length := by omega
    have hstep := loop_normal_cons (post.length + 1) fd mk t post out1 pre.length hlt
    have hframe : ∀ j, pre.length < j → (out1.set pre.length t)[j]? = out[j]? := by
      intro j hj
      rw [List.getElem?_set_ne (by omega), hfr j (by omega)]
    refine ⟨⟨pre.length, none, out1.set pre.length t, ⟨fd, mk, byteScript post⟩⟩,
      ?_, rfl, rfl, hroom, ?_, ?_, hframe, fun _ => hframe⟩
    · simp only [ReadTo, Reader.isTTY, hfuel]
      simp only [decide_eq_true_eq, if_neg hfd, hrun]
      rw [hstep]
      simp [ht]
    · simp only
      rw [take_set_le out1 t _ _ (le_refl _), htk]
    · simp [hlt]

set_option maxRecDepth 100000 in
theorem terminator_stored_at_count_witness :
    ((some false : Option Bool) = some true → (none : Option Error) = none) ∧
    isTerminator asciiLF = true ∧
    (∀ b ∈ ascii "abc", isTerminator b = false ∧
      ((some false : Option Bool) = some true → b ≠ asciiETX)) ∧
    ∃ r, ReadTo ⟨some false, none, byteScript (ascii "abc" ++ asciiLF :: [])⟩
          (List.replicate 4 0) = some r ∧
      r.err = none ∧
      r.n = (if (some false : Option Bool) = some true
              then (lineEdit (List.replicate 4 (0 : Byte)).length (ascii "abc") []).length
              else (ascii "abc").length) ∧
      r.n < (List.replicate 4 (0 : Byte)).length ∧
      r.out.take r.n = (if (some false : Option Bool) = some true
              then lineEdit (List.replicate 4 (0 : Byte)).length (ascii "abc") []
              else ascii "abc") ∧
      r.out[r.n]? = some asciiLF ∧
      (∀ j, (ascii "abc").length < j → r.out[j]? = (List.replicate 4 (0 : Byte))[j]?) ∧
      ((some false : Option Bool) ≠ some true →
        ∀ j, r.n < j → r.out[j]? = (List.replicate 4 (0 : Byte))[j]?) :=
  ⟨by decide, by decide, by decide,
    terminator_stored_at_count (some false) none (ascii "abc") [] (List.replicate 4 0) asciiLF
      (by decide) (by decide) (by decide) (by decide)⟩

/-! ## Claims about `align2Up` and `ReadSize` -/

/-- C5: for a page size 2^k and a size s > 0 with s + 2^k within the
machine int, align2Up s 2^k is a multiple of the page size, at least s, below
s + 2^k, the least such multiple, and equal to s when s is a page multiple;
it is the capacity of the mapping makePasswd creates. -/
theorem align2Up_rounds_up (s k : Nat) (hs : 0 < s) (hov : s + 2 ^ k < 2 ^ 63) :
    2 ^ k ∣ align2Up s (2 ^ k) ∧ s ≤ align2Up s (2 ^ k) ∧ align2Up s (2 ^ k) < s + 2 ^ k ∧
      (∀ m, 2 ^ k ∣ m → s ≤ m → align2Up s (2 ^ k) ≤ m) ∧
      (2 ^ k ∣ s → align2Up s (2 ^ k) = s) ∧
      (∀ os : OS, os.pagesize = 2 ^ k → os.mmapErr = none → os.mlockErr = none →
        ∃ os1, makePasswd os s
          = .ret (os1, some ⟨os.regions.length, 0, s, align2Up s (2 ^ k)⟩, none)) := by
  have hpos : 0 < 2 ^ k := Nat.two_pow_pos k
  have hk : k ≤ 62 := by
    by_contra h
    have : 2 ^ 63 ≤ 2 ^ k := Nat.pow_le_pow_right (by decide) (by omega)
    omega
  have hex := align2Up_exact s k hs hov
  have hle : 2 ^ k * ((s - 1) / 2 ^ k) ≤ s - 1 := Nat.mul_div_le _ _
  have hgt : s - 1 < 2 ^ k * ((s - 1) / 2 ^ k) + 2 ^ k := by
    have h := Nat.div_add_mod (s - 1) (2 ^ k)
    have h2 := Nat.mod_lt (s - 1) hpos
    omega
  have hmin : ∀ m, 2 ^ k ∣ m → s ≤ m → align2Up s (2 ^ k) ≤ m := by
    intro m hm hsm
    obtain ⟨c, rfl⟩ := hm
    rw [hex]
    have hc : (s - 1) / 2 ^ k < c := by
      by_contra hcon
      have := Nat.mul_le_mul_left (2 ^ k) (Nat.le_of_not_lt hcon)
      omega
    have := Nat.mul_le_mul_left (2 ^ k) (Nat.succ_le_of_lt hc)
    rw [Nat.mul_succ] at this
    exact this
  have hdvd : 2 ^ k ∣ align2Up s (2 ^ k) := by
    rw [hex]
    exact Dvd.intro ((s - 1) / 2 ^ k + 1) (by rw [Nat.mul_succ])
  have hge : s ≤ align2Up s (2 ^ k) := by rw [hex]; omega
  refine ⟨hdvd, hge, by rw [hex]; omega, hmin, ?_, ?_⟩
  · intro hd
    exact Nat.le_antisymm (hmin s hd (le_refl _)) hge
  · intro os hp hmm hml
    exact ⟨_, makePasswd_ok os s k hp hk (by omega) hmm hml (by omega) (by rw [hex]; omega)⟩

theorem align2Up_rounds_up_witness :
    0 < 4097 ∧ 4097 + 2 ^ 12 < 2 ^ 63 ∧
    (2 ^ 12 ∣ align2Up 4097 (2 ^ 12) ∧ 4097 ≤ align2Up 4097 (2 ^ 12) ∧
      align2Up 4097 (2 ^ 12) < 4097 + 2 ^ 12 ∧
      (∀ m, 2 ^ 12 ∣ m → 4097 ≤ m → align2Up 4097 (2 ^ 12) ≤ m) ∧
      (2 ^ 12 ∣ 4097 → align2Up 4097 (2 ^ 12) = 4097) ∧
      (∀ os : OS, os.pagesize = 2 ^ 12 → os.mmapErr = none → os.mlockErr = none →
        ∃ os1, makePasswd os 4097
          = .ret (os1, some ⟨os.regions.length, 0, 4097, align2Up 4097 (2 ^ 12)⟩, none))) :=
  ⟨by norm_num, by norm_num, align2Up_rounds_up 4097 12 (by norm_num) (by norm_num)⟩

set_option maxRecDepth 100000 in
theorem ReadSize_no_leak_witness :
    demoOS.pagesize = 2 ^ 12 ∧ align2Up 4096 (2 ^ 12) ≠ 0 ∧ align2Up 4096 (2 ^ 12) < 2 ^ 63 ∧
    ∃ r, ReadTo (ttyReader (ascii "pass\x03word")) (List.replicate 4096 0) = some r ∧
      (∀ e, r.err = some e →
        ∃ os2, ReadSize demoOS (ttyReader (ascii "pass\x03word")) 0
            = .ret (os2, r.rd, none, some e) ∧
          os2.region demoOS.regions.length = none ∧
          os2.log = demoOS.log ++ [Syscall.mmap demoOS.regions.length (align2Up 4096 (2 ^ 12)),
            Syscall.mlock demoOS.regions.length,
            Syscall.munmap demoOS.regions.length
              (List.replicate (align2Up 4096 (2 ^ 12)) 0)]) ∧
      (r.err = none →
        ∃ os2, ReadSize demoOS (ttyReader (ascii "pass\x03word")) 0
            = .ret (os2, r.rd,
                some ⟨demoOS.regions.length, 0, r.n, align2Up 4096 (2 ^ 12)⟩, none) ∧
          r.n ≤ 4096 ∧
          os2.live (some ⟨demoOS.regions.length, 0, r.n, align2Up 4096 (2 ^ 12)⟩) = true ∧
          os2.region demoOS.regions.length
            = some ⟨r.out ++ List.replicate (align2Up 4096 (2 ^ 12) - 4096) 0, true, true⟩ ∧
          os2.load ⟨demoOS.regions.length, 0, r.n, align2Up 4096 (2 ^ 12)⟩
            = some (r.out.take r.n) ∧
          os2.log = demoOS.log ++ [Syscall.mmap demoOS.regions.length (align2Up 4096 (2 ^ 12)),
            Syscall.mlock demoOS.regions.length]) ∧
      (∀ (os2 : OS) (rd2 : Reader) (p : Password) (e : Option Error),
        ReadSize demoOS (ttyReader (ascii "pass\x03word")) 0 = .ret (os2, rd2, p, e) →
          p = none ∨ e = none) :=
  ⟨by decide, by decide, by decide,
    ReadSize_no_leak demoOS (ttyReader (ascii "pass\x03word")) 0 4096 12
      (by decide) (by decide) (by decide) (by decide) rfl rfl (by decide) (by decide)⟩

end GoPass
